import Mathlib

/-!
# Kernel version values (`internal/version.go`)

A shallow embedding of the `Version` type of the eBPF loader's `internal`
package together with its operations, followed by theorems about them.

Machine integers are natural numbers; every conversion and every operation
that can wrap in Go carries its reduction modulo `2 ^ w` explicitly.
-/

namespace Internal

/-! ## Machine integers -/

/-- Conversion `uint8(x)`: keeps the low 8 bits. -/
def uint8 (x : Nat) : Nat := x % 2 ^ 8

/-- Conversion `uint16(x)`: keeps the low 16 bits. -/
def uint16 (x : Nat) : Nat := x % 2 ^ 16

/-- Conversion `uint32(x)`: keeps the low 32 bits. -/
def uint32 (x : Nat) : Nat := x % 2 ^ 32

/-- Left shift `x << k` on a `uint32`; bits shifted past bit 31 are lost. -/
def shl32 (x k : Nat) : Nat := (x <<< k) % 2 ^ 32

/-- Right shift `x >> k` on a `uint32`. -/
def shr32 (x k : Nat) : Nat := x >>> k

/-- Bitwise or `x | y` on `uint32` values. -/
def or32 (x y : Nat) : Nat := x ||| y

/-! ## The data model -/

/-- The constant `MagicKernelVersion`. -/
def MagicKernelVersion : Nat := 0xFFFFFFFE

/-- The type `Version`, a `[3]uint16` read as Major.Minor.Patch. -/
structure Version where
  major : Nat
  minor : Nat
  patch : Nat
deriving DecidableEq, Repr

/-- Every element of the array is a `uint16`. -/
def Version.IsUint16 (v : Version) : Prop :=
  v.major < 2 ^ 16 ∧ v.minor < 2 ^ 16 ∧ v.patch < 2 ^ 16

instance (v : Version) : Decidable v.IsUint16 := by
  unfold Version.IsUint16; infer_instance

/-- Array indexing `v[i]` for `i` in `0..2`. -/
def Version.idx (v : Version) : Nat → Nat
  | 0 => v.major
  | 1 => v.minor
  | _ => v.patch

/-- The zero value `Version{}`. -/
def Version.zero : Version := ⟨0, 0, 0⟩

/-! ## Operations on packed codes -/

/-- The function `NewVersionFromCode`. -/
def NewVersionFromCode (code : Nat) : Version :=
  ⟨uint16 (uint8 (shr32 code 16)),
   uint16 (uint8 (shr32 code 8)),
   uint16 (uint8 code)⟩

/-- The method `Version.Kernel`. -/
def Version.Kernel (v : Version) : Nat :=
  let s := min (v.idx 2) 255
  or32 (or32 (shl32 (uint32 (uint8 (v.idx 0))) 16) (shl32 (uint32 (uint8 (v.idx 1))) 8))
    (uint32 (uint8 s))

/-! ## Comparison -/

/-- The body of the `range` loop of `Version.Less`, run over the indices that
are still to be visited. -/
def Version.lessLoop (v other : Version) : List Nat → Bool
  | [] => false
  | i :: rest =>
    if v.idx i = other.idx i then Version.lessLoop v other rest
    else decide (v.idx i < other.idx i)

/-- The method `Version.Less`. -/
def Version.Less (v other : Version) : Bool :=
  Version.lessLoop v other [0, 1, 2]

/-- The method `Version.Unspecified`. -/
def Version.Unspecified (v : Version) : Bool :=
  v.idx 0 == 0 && v.idx 1 == 0 && v.idx 2 == 0

/-- Strict lexicographic order on the triple, written out field by field. -/
def Version.lexLt (a b : Version) : Prop :=
  a.major < b.major ∨
  (a.major = b.major ∧ a.minor < b.minor) ∨
  (a.major = b.major ∧ a.minor = b.minor ∧ a.patch < b.patch)

instance (a b : Version) : Decidable (a.lexLt b) := by
  unfold Version.lexLt; infer_instance

/-! ## Rendering: `fmt.Sprintf` with the verb `%d`

`Version.String` calls `fmt.Sprintf` with the formats `"v%d.%d"` and
`"v%d.%d.%d"`. The verb `%d` on an unsigned operand runs the base 10 loop of
`fmtInteger` (`fmt/format.go`), which writes the digits right to left into a
buffer. -/

/-- The byte `'0' + d`. -/
def digitByte (d : Nat) : Char := Char.ofNat (48 + d)

/-- The loop `for u >= 10 { next := u / 10; buf[i] = byte('0' + u - next*10);
u = next }` of `fmtInteger` followed by the store of the leading digit. The
first argument bounds the number of iterations. -/
def fmtIntegerLoop : Nat → Nat → List Char → List Char
  | 0, u, buf => digitByte u :: buf
  | fuel + 1, u, buf =>
    if u ≥ 10 then
      let next := u / 10
      fmtIntegerLoop fuel next (digitByte (u - next * 10) :: buf)
    else digitByte u :: buf

/-- The digits written by `%d` for the unsigned value `u`. -/
def fmtInteger (u : Nat) : List Char := fmtIntegerLoop u u []

/-- The call `fmt.Sprintf("v%d.%d", a, b)`. -/
def Sprintf2 (a b : Nat) : String :=
  ⟨'v' :: (fmtInteger a ++ '.' :: fmtInteger b)⟩

/-- The call `fmt.Sprintf("v%d.%d.%d", a, b, c)`. -/
def Sprintf3 (a b c : Nat) : String :=
  ⟨'v' :: (fmtInteger a ++ '.' :: (fmtInteger b ++ '.' :: fmtInteger c))⟩

/-- The method `Version.String`. -/
def Version.String (v : Version) : String :=
  if v.idx 2 = 0 then Sprintf2 (v.idx 0) (v.idx 1)
  else Sprintf3 (v.idx 0) (v.idx 1) (v.idx 2)

/-! ## Scanning: `fmt.Sscanf` with the format `"%d.%d.%d"`

`NewVersion` calls `fmt.Sscanf(ver, "%d.%d.%d", &major, &minor, &patch)` with
three `*uint16` operands. The definitions below follow `fmt/scan.go` and
`strconv/atoi.go` on the path this call takes: `doScanf` alternates the verb
`%d` (`SkipSpace`, then `scanOne`, which goes through `scanUint`,
`scanNumber` and `strconv.ParseUint`) with the literal `.` (`advance`).

The input is the list of runes of the string; a byte that is not valid UTF-8
is read by Go as the rune U+FFFD, which is an ordinary character here. A
scanner error is a Go panic recovered by `errorHandler`; the operands stored
before the panic keep their values and `n` counts them. -/

/-- The constant `hugeWid`, the limit on the number of runes read. -/
def hugeWid : Nat := 1 <<< 30

/-- The ways in which the scan can stop early. -/
inductive ScanError
  | eof
  | unexpectedEOF
  | unexpectedNewline
  | noMatch
  | expectedInteger
  | malformed
  | rangeError
  | overflow
deriving DecidableEq, Repr

/-- The scanner state `ss`: the unread input and the count of runes consumed.
`UnreadRune` is rendered by continuing from the state before the read. -/
structure ss where
  rs : List Char
  count : Nat
deriving DecidableEq, Repr

/-- The table `space` of `fmt/scan.go`. -/
def space : List (Nat × Nat) :=
  [(0x0009, 0x000d), (0x0020, 0x0020), (0x0085, 0x0085), (0x00a0, 0x00a0),
   (0x1680, 0x1680), (0x2000, 0x200a), (0x2028, 0x2029), (0x202f, 0x202f),
   (0x205f, 0x205f), (0x3000, 0x3000)]

/-- The loop of `isSpace` over the table. -/
def isSpaceLoop (rx : Nat) : List (Nat × Nat) → Bool
  | [] => false
  | rng :: rest =>
    if rx < rng.1 then false
    else if rx ≤ rng.2 then true
    else isSpaceLoop rx rest

/-- The function `isSpace`. -/
def isSpace (r : Char) : Bool :=
  if r.toNat ≥ 1 <<< 16 then false
  else isSpaceLoop (uint16 r.toNat) space

/-- The constant `decimalDigits`. -/
def decimalDigits : List Char := "0123456789".data

/-- The method `ss.getRune`: the next rune and the state after it, or nothing
at the end of the input or at the limit `argLimit = hugeWid`. -/
def ss.getRune (s : ss) : Option (Char × ss) :=
  if s.count ≥ hugeWid then none
  else
    match s.rs with
    | [] => none
    | r :: rest => some (r, ⟨rest, s.count + 1⟩)

/-- The method `ss.peek`. -/
def ss.peek (s : ss) (ok : List Char) : Bool :=
  match s.getRune with
  | none => false
  | some (r, _) => decide (r ∈ ok)

/-- The method `ss.SkipSpace` with `nlIsSpace = false`, on the unread input
and the count. -/
def SkipSpace : List Char → Nat → Except ScanError ss
  | [], count => .ok ⟨[], count⟩
  | r :: rest, count =>
    if count ≥ hugeWid then .ok ⟨r :: rest, count⟩
    else if r = '\r' ∧ ss.peek ⟨rest, count + 1⟩ ['\n'] = true then
      SkipSpace rest (count + 1)
    else if r = '\n' then .error .unexpectedNewline
    else if isSpace r = false then .ok ⟨r :: rest, count⟩
    else SkipSpace rest (count + 1)

/-- The method `ss.notEOF`. -/
def ss.notEOF (s : ss) : Except ScanError Unit :=
  match s.getRune with
  | none => .error .eof
  | some _ => .ok ()

/-- The method `ss.accept`: the buffer with the rune appended and the state
after it when the next rune is one of `ok`. -/
def ss.accept (s : ss) (ok : List Char) (buf : List Char) : Option (List Char × ss) :=
  match s.getRune with
  | none => none
  | some (r, s1) => if r ∈ ok then some (buf ++ [r], s1) else none

/-- The loop `for s.accept(digits) {}` of `scanNumber`. -/
def acceptLoop (ok : List Char) : List Char → Nat → List Char → List Char × ss
  | [], count, buf => (buf, ⟨[], count⟩)
  | r :: rest, count, buf =>
    if count ≥ hugeWid then (buf, ⟨r :: rest, count⟩)
    else if r ∈ ok then acceptLoop ok rest (count + 1) (buf ++ [r])
    else (buf, ⟨r :: rest, count⟩)

/-- The method `ss.scanNumber` with `haveDigits = false`. -/
def ss.scanNumber (s : ss) (digits : List Char) : Except ScanError (List Char × ss) :=
  match s.notEOF with
  | .error e => .error e
  | .ok _ =>
    match s.accept digits [] with
    | none => .error .expectedInteger
    | some (buf, s1) => .ok (acceptLoop digits s1.rs s1.count buf)

/-- The digit loop of `strconv.ParseUint` in base 10 with `bitSize = 64`. -/
def ParseUintLoop : List Char → Nat → Except ScanError Nat
  | [], n => .ok n
  | c :: cs, n =>
    if '0' ≤ c ∧ c ≤ '9' then
      let d := c.toNat - '0'.toNat
      if n ≥ (2 ^ 64 - 1) / 10 + 1 then .error .rangeError
      else
        let n0 := n * 10
        let n1 := (n0 + d) % 2 ^ 64
        if n1 < n0 ∨ n1 > 2 ^ 64 - 1 then .error .rangeError
        else ParseUintLoop cs n1
    else .error .malformed

/-- The call `strconv.ParseUint(tok, 10, 64)`. -/
def ParseUint (tok : List Char) : Except ScanError Nat :=
  if tok = [] then .error .malformed else ParseUintLoop tok 0

/-- The method `ss.scanUint` for the verb `%d`. -/
def ss.scanUint (s : ss) (bitSize : Nat) : Except ScanError (Nat × ss) :=
  match SkipSpace s.rs s.count with
  | .error e => .error e
  | .ok s1 =>
    match s1.notEOF with
    | .error e => .error e
    | .ok _ =>
      match s1.scanNumber decimalDigits with
      | .error e => .error e
      | .ok (tok, s2) =>
        match ParseUint tok with
        | .error e => .error e
        | .ok i =>
          let x := ((i <<< (64 - bitSize)) % 2 ^ 64) >>> (64 - bitSize)
          if x ≠ i then .error .overflow else .ok (i, s2)

/-- One verb `%d` of `doScanf` with a `*uint16` operand: `SkipSpace`, then
`scanOne`, which stores `uint16(s.scanUint(verb, 16))`. -/
def ss.scanVerb (s : ss) : Except ScanError (Nat × ss) :=
  match SkipSpace s.rs s.count with
  | .error e => .error e
  | .ok s1 =>
    match s1.scanUint 16 with
    | .error e => .error e
    | .ok (i, s2) => .ok (uint16 i, s2)

/-- The method `ss.advance` on one literal character of the format. -/
def ss.advance (s : ss) (fmtc : Char) : Except ScanError ss :=
  match s.getRune with
  | none => .error .unexpectedEOF
  | some (inputc, s1) => if fmtc ≠ inputc then .error .noMatch else .ok s1

/-- What `fmt.Sscanf` leaves behind: the count `n`, the error and the three
operands, which start at zero. -/
structure Scanned where
  n : Nat
  err : Option ScanError
  major : Nat
  minor : Nat
  patch : Nat
deriving DecidableEq, Repr

/-- The call `fmt.Sscanf(str, "%d.%d.%d", &major, &minor, &patch)`. -/
def Sscanf (str : String) : Scanned :=
  match ss.scanVerb ⟨str.data, 0⟩ with
  | .error e => ⟨0, some e, 0, 0, 0⟩
  | .ok (major, s1) =>
    match s1.advance '.' with
    | .error e => ⟨1, some e, major, 0, 0⟩
    | .ok s2 =>
      match s2.scanVerb with
      | .error e => ⟨1, some e, major, 0, 0⟩
      | .ok (minor, s3) =>
        match s3.advance '.' with
        | .error e => ⟨2, some e, major, minor, 0⟩
        | .ok s4 =>
          match s4.scanVerb with
          | .error e => ⟨2, some e, major, minor, 0⟩
          | .ok (patch, _) => ⟨3, none, major, minor, patch⟩

/-- The function `NewVersion`: the version and the error, `none` for `nil`. -/
def NewVersion (ver : String) : Version × Option String :=
  let r := Sscanf ver
  if r.n < 2 then (Version.zero, some ("invalid version: " ++ ver))
  else (⟨r.major, r.minor, r.patch⟩, none)

/-- The text begins with a decimal digit. -/
def startsWithDigit : List Char → Bool
  | [] => false
  | c :: _ => decide (c ∈ decimalDigits)

/-- The macro `KERNEL_VERSION(a, b, c)` of `linux/version.h` since the kernel
commit that clamps the sublevel,
`((a) << 16) + ((b) << 8) + ((c) > 255 ? 255 : (c))`, as plain arithmetic. -/
def KERNEL_VERSION (a b c : Nat) : Nat :=
  (a <<< 16) + (b <<< 8) + (if c > 255 then 255 else c)

/-! ## Arithmetic of the packed code -/

/-- Three bytes combined by shifts and bitwise or add up without carries. -/
theorem pack_bytes (a b c : Nat) (hb : b < 256) (hc : c < 256) :
    (a <<< 16 ||| b <<< 8) ||| c = a * 65536 + b * 256 + c := by
  have h1 : a <<< 16 ||| b <<< 8 = 2 ^ 8 * (a * 256 + b) := by
    have hb8 : b <<< 8 < 2 ^ 16 := by rw [Nat.shiftLeft_eq]; omega
    have := Nat.mul_add_lt_is_or hb8 a
    rw [Nat.shiftLeft_eq a 16, Nat.mul_comm a (2 ^ 16), ← this, Nat.shiftLeft_eq]
    omega
  have hc8 : c < 2 ^ 8 := by omega
  rw [h1, ← Nat.mul_add_lt_is_or hc8]
  omega

/-- The packed code as a sum of three byte lanes. -/
theorem Kernel_arith (v : Version) :
    v.Kernel = (v.major % 256) * 65536 + (v.minor % 256) * 256 + min v.patch 255 := by
  have hm : min v.patch 255 % 256 = min v.patch 255 := Nat.mod_eq_of_lt (by omega)
  have h1 : v.major % 256 % 4294967296 = v.major % 256 := Nat.mod_eq_of_lt (by omega)
  have h2 : v.minor % 256 % 4294967296 = v.minor % 256 := Nat.mod_eq_of_lt (by omega)
  have h3 : ((v.major % 256) <<< 16) % 4294967296 = (v.major % 256) <<< 16 := by
    rw [Nat.shiftLeft_eq]; exact Nat.mod_eq_of_lt (by omega)
  have h4 : ((v.minor % 256) <<< 8) % 4294967296 = (v.minor % 256) <<< 8 := by
    rw [Nat.shiftLeft_eq]; exact Nat.mod_eq_of_lt (by omega)
  have h5 : min v.patch 255 % 4294967296 = min v.patch 255 := Nat.mod_eq_of_lt (by omega)
  simp only [Version.Kernel, Version.idx, uint8, uint32, shl32, or32, Nat.reducePow,
    hm, h1, h2, h3, h4, h5]
  exact pack_bytes _ _ _ (by omega) (by omega)

/-- The comparison loop computes the lexicographic order. -/
theorem Less_iff_lexLt (a b : Version) : a.Less b = true ↔ a.lexLt b := by
  simp only [Version.Less, Version.lessLoop, Version.idx, Version.lexLt]
  by_cases h0 : a.major = b.major <;> by_cases h1 : a.minor = b.minor <;>
    simp [h0, h1]
  all_goals omega

/-! ## Digits -/

/-- The ten digit bytes, with the facts the scanner and the parser use. -/
theorem digitByte_facts (d : Nat) (h : d < 10) :
    digitByte d ∈ decimalDigits ∧ digitByte d = Nat.digitChar d
      ∧ ('0' ≤ digitByte d ∧ digitByte d ≤ '9')
      ∧ (digitByte d).toNat - '0'.toNat = d := by
  have hd : d = 0 ∨ d = 1 ∨ d = 2 ∨ d = 3 ∨ d = 4 ∨ d = 5 ∨ d = 6 ∨ d = 7 ∨ d = 8 ∨ d = 9 := by
    omega
  rcases hd with rfl | rfl | rfl | rfl | rfl | rfl | rfl | rfl | rfl | rfl <;> decide

/-- A decimal digit is neither a newline, a carriage return, a period nor a
space. -/
theorem decimalDigits_plain :
    ∀ c ∈ decimalDigits, c ≠ '\r' ∧ c ≠ '\n' ∧ c ≠ '.' ∧ isSpace c = false := by
  decide

/-- The digit loop agrees with the digit loop of `Nat.toDigits`. -/
theorem fmtIntegerLoop_eq_toDigitsCore (fuel : Nat) :
    ∀ (u : Nat) (buf : List Char), u ≤ fuel →
      fmtIntegerLoop fuel u buf = Nat.toDigitsCore 10 (fuel + 1) u buf := by
  induction fuel with
  | zero =>
    intro u buf hu
    have hu0 : u = 0 := by omega
    subst hu0
    rfl
  | succ fuel ih =>
    intro u buf hu
    rw [fmtIntegerLoop, Nat.toDigitsCore]
    by_cases h10 : u ≥ 10
    · have hne : ¬ u / 10 = 0 := by omega
      have hsub : u - u / 10 * 10 = u % 10 := by omega
      simp only [h10, if_true, hne, if_false, hsub]
      rw [ih (u / 10) _ (by omega), (digitByte_facts (u % 10) (by omega)).2.1]
    · have he : u / 10 = 0 := by omega
      have hm : u % 10 = u := by omega
      simp only [h10, if_false, he, if_true, hm]
      rw [(digitByte_facts u (by omega)).2.1]

/-- The digits written by `%d` are the decimal numeral of the value. -/
theorem fmtInteger_eq_repr (u : Nat) : fmtInteger u = (Nat.repr u).data := by
  rw [fmtInteger, fmtIntegerLoop_eq_toDigitsCore u u [] (Nat.le_refl u)]
  rfl

/-- Every byte written by the digit loop is a decimal digit. -/
theorem fmtIntegerLoop_digits (fuel : Nat) :
    ∀ (u : Nat) (buf : List Char), u ≤ fuel → (∀ c ∈ buf, c ∈ decimalDigits) →
      ∀ c ∈ fmtIntegerLoop fuel u buf, c ∈ decimalDigits := by
  induction fuel with
  | zero =>
    intro u buf hu hbuf c hc
    have hu0 : u = 0 := by omega
    subst hu0
    rw [fmtIntegerLoop, List.mem_cons] at hc
    rcases hc with rfl | hc
    · exact (digitByte_facts 0 (by omega)).1
    · exact hbuf c hc
  | succ fuel ih =>
    intro u buf hu hbuf c hc
    rw [fmtIntegerLoop] at hc
    by_cases h10 : u ≥ 10
    · simp only [h10, if_true] at hc
      refine ih (u / 10) _ (by omega) ?_ c hc
      intro x hx
      rw [List.mem_cons] at hx
      rcases hx with rfl | hx
      · exact (digitByte_facts _ (by omega)).1
      · exact hbuf x hx
    · simp only [h10, if_false, List.mem_cons] at hc
      rcases hc with rfl | hc
      · exact (digitByte_facts u (by omega)).1
      · exact hbuf c hc

/-- The digit loop writes at least one byte. -/
theorem fmtIntegerLoop_ne_nil (fuel u : Nat) (buf : List Char) :
    fmtIntegerLoop fuel u buf ≠ [] := by
  induction fuel generalizing u buf with
  | zero => simp [fmtIntegerLoop]
  | succ fuel ih =>
    rw [fmtIntegerLoop]
    by_cases h10 : u ≥ 10
    · simp only [h10, if_true]; exact ih _ _
    · simp [h10]

/-- The digit loop writes at most one byte per unit of fuel, and one more. -/
theorem fmtIntegerLoop_length (fuel u : Nat) (buf : List Char) :
    (fmtIntegerLoop fuel u buf).length ≤ fuel + 1 + buf.length := by
  induction fuel generalizing u buf with
  | zero => simp [fmtIntegerLoop]; omega
  | succ fuel ih =>
    rw [fmtIntegerLoop]
    by_cases h10 : u ≥ 10
    · simp only [h10, if_true]
      have := ih (u / 10) (digitByte (u - u / 10 * 10) :: buf)
      simp only [List.length_cons] at this
      omega
    · simp [h10]; omega

/-- Parsing what the digit loop wrote continues from the value written. -/
theorem ParseUintLoop_fmtIntegerLoop (fuel : Nat) :
    ∀ (u : Nat) (buf : List Char), u ≤ fuel → u < 2 ^ 32 →
      ParseUintLoop (fmtIntegerLoop fuel u buf) 0 = ParseUintLoop buf u := by
  have step : ∀ (n d : Nat) (buf : List Char), d < 10 → n * 10 + d < 2 ^ 32 →
      ParseUintLoop (digitByte d :: buf) n = ParseUintLoop buf (n * 10 + d) := by
    intro n d buf hd hn
    obtain ⟨-, -, hr, hv⟩ := digitByte_facts d hd
    rw [ParseUintLoop]
    have h1 : ¬ n ≥ (2 ^ 64 - 1) / 10 + 1 := by omega
    have h2 : (n * 10 + d) % 2 ^ 64 = n * 10 + d := Nat.mod_eq_of_lt (by omega)
    have h3 : ¬ (n * 10 + d < n * 10 ∨ n * 10 + d > 2 ^ 64 - 1) := by omega
    simp only [hr, and_self, if_true, hv, h1, if_false, h2, h3]
  induction fuel with
  | zero =>
    intro u buf hu _
    have hu0 : u = 0 := by omega
    subst hu0
    rw [fmtIntegerLoop, step 0 0 buf (by omega) (by omega)]
  | succ fuel ih =>
    intro u buf hu hlt
    rw [fmtIntegerLoop]
    by_cases h10 : u ≥ 10
    · have hsub : u - u / 10 * 10 = u % 10 := by omega
      simp only [h10, if_true, hsub]
      rw [ih (u / 10) _ (by omega) (by omega), step (u / 10) (u % 10) buf (by omega) (by omega)]
      congr 1
      omega
    · simp only [h10, if_false]
      rw [step 0 u buf (by omega) (by omega)]
      congr 1
      omega

/-- The digits of a value: decimal digits only, at least one, at most
`u + 1`, and `strconv.ParseUint` reads the value back. -/
theorem fmtInteger_facts (u : Nat) (hu : u < 2 ^ 32) :
    (∀ c ∈ fmtInteger u, c ∈ decimalDigits) ∧ fmtInteger u ≠ []
      ∧ (fmtInteger u).length ≤ u + 1 ∧ ParseUint (fmtInteger u) = .ok u := by
  refine ⟨?_, fmtIntegerLoop_ne_nil u u [], ?_, ?_⟩
  · exact fmtIntegerLoop_digits u u [] (Nat.le_refl u) (by simp)
  · have := fmtIntegerLoop_length u u []
    simpa [fmtInteger] using this
  · have hne : fmtInteger u ≠ [] := fmtIntegerLoop_ne_nil u u []
    rw [ParseUint, if_neg hne, fmtInteger,
      ParseUintLoop_fmtIntegerLoop u u [] (Nat.le_refl u) hu]
    rfl

/-! ## Scanning a number -/

/-- The accept loop takes a run of digits up to the first other character. -/
theorem acceptLoop_digits (ds rest : List Char) :
    ∀ (count : Nat) (buf : List Char), (∀ c ∈ ds, c ∈ decimalDigits) →
      startsWithDigit rest = false → count + ds.length ≤ hugeWid →
      acceptLoop decimalDigits (ds ++ rest) count buf
        = (buf ++ ds, ⟨rest, count + ds.length⟩) := by
  induction ds with
  | nil =>
    intro count buf _ hrest _
    cases rest with
    | nil => simp [acceptLoop]
    | cons r rest =>
      have hr : r ∉ decimalDigits := by simpa [startsWithDigit] using hrest
      simp [acceptLoop, hr]
  | cons d ds ih =>
    intro count buf hds hrest hcount
    have hd : d ∈ decimalDigits := hds d (List.mem_cons_self _ _)
    have hc : ¬ count ≥ hugeWid := by
      simp only [List.length_cons] at hcount; omega
    rw [List.cons_append, acceptLoop, if_neg hc, if_pos hd,
      ih (count + 1) (buf ++ [d]) (fun c h => hds c (List.mem_cons_of_mem _ h)) hrest
        (by simp only [List.length_cons] at hcount; omega)]
    simp only [List.append_assoc, List.singleton_append, List.length_cons]
    congr 2
    omega

/-- The verb `%d` on a run of digits that `strconv.ParseUint` reads as a
value below `2 ^ 16`: the value is stored and the scanner stands after the
run. -/
theorem scanVerb_digits (ds rest : List Char) (count v : Nat)
    (hds : ∀ c ∈ ds, c ∈ decimalDigits) (hne : ds ≠ [])
    (hrest : startsWithDigit rest = false) (hcount : count + ds.length ≤ hugeWid)
    (hv : ParseUint ds = .ok v) (hlt : v < 2 ^ 16) :
    ss.scanVerb ⟨ds ++ rest, count⟩ = .ok (v, ⟨rest, count + ds.length⟩) := by
  cases ds with
  | nil => exact absurd rfl hne
  | cons d ds =>
    have hd : d ∈ decimalDigits := hds d (List.mem_cons_self _ _)
    obtain ⟨hr, hn, -, hsp⟩ := decimalDigits_plain d hd
    have hc : ¬ count ≥ hugeWid := by
      simp only [List.length_cons] at hcount; omega
    have hskip : SkipSpace (d :: (ds ++ rest)) count = .ok ⟨d :: (ds ++ rest), count⟩ := by
      rw [SkipSpace]; simp [hc, hr, hn, hsp]
    have hacc := acceptLoop_digits ds rest (count + 1) [d]
      (fun c h => hds c (List.mem_cons_of_mem _ h)) hrest
      (by simp only [List.length_cons] at hcount; omega)
    have hx : ((v <<< (64 - 16)) % 2 ^ 64) >>> (64 - 16) = v := by
      rw [Nat.shiftLeft_eq, Nat.shiftRight_eq_div_pow]
      omega
    have hu : uint16 v = v := Nat.mod_eq_of_lt hlt
    simp only [ss.scanVerb, List.cons_append, hskip, ss.scanUint, ss.notEOF, ss.getRune,
      hc, if_false, ss.scanNumber, ss.accept, hd, if_true, List.nil_append, hacc,
      List.singleton_append, hv, hx, ne_eq, not_true_eq_false, hu, List.length_cons]
    congr 3
    omega

/-- The literal `.` of the format on an input that goes on with a period. -/
theorem advance_period (rest : List Char) (count : Nat) (hcount : count < hugeWid) :
    ss.advance ⟨'.' :: rest, count⟩ '.' = .ok ⟨rest, count + 1⟩ := by
  have hc : ¬ count ≥ hugeWid := by omega
  simp [ss.advance, ss.getRune, hc]

/-- Text that goes on with a period does not begin with a digit. -/
theorem startsWithDigit_period (rest : List Char) :
    startsWithDigit ('.' :: rest) = false := by
  show decide ('.' ∈ decimalDigits) = false
  decide

/-- Three numerals separated by periods, followed by text that does not begin
with a digit: all three operands are stored. -/
theorem Sscanf_three (a b c : Nat) (rest : List Char)
    (ha : a < 2 ^ 16) (hb : b < 2 ^ 16) (hc : c < 2 ^ 16)
    (hrest : startsWithDigit rest = false) :
    Sscanf ⟨fmtInteger a ++ '.' :: (fmtInteger b ++ '.' :: (fmtInteger c ++ rest))⟩
      = ⟨3, none, a, b, c⟩ := by
  obtain ⟨ha1, ha2, ha3, ha4⟩ := fmtInteger_facts a (by omega)
  obtain ⟨hb1, hb2, hb3, hb4⟩ := fmtInteger_facts b (by omega)
  obtain ⟨hc1, hc2, hc3, hc4⟩ := fmtInteger_facts c (by omega)
  have hw : hugeWid = 1073741824 := by decide
  rw [Sscanf,
    scanVerb_digits (fmtInteger a) _ 0 a ha1 ha2 (startsWithDigit_period _) (by omega) ha4 ha]
  simp only
  rw [advance_period _ _ (by omega)]
  simp only
  rw [scanVerb_digits (fmtInteger b) _ _ b hb1 hb2 (startsWithDigit_period _) (by omega) hb4 hb]
  simp only
  rw [advance_period _ _ (by omega)]
  simp only
  rw [scanVerb_digits (fmtInteger c) _ _ c hc1 hc2 hrest (by omega) hc4 hc]

/-- Two numerals separated by a period and nothing else: two operands are
stored and the scan stops at the end of the input. -/
theorem Sscanf_two (a b : Nat) (ha : a < 2 ^ 16) (hb : b < 2 ^ 16) :
    Sscanf ⟨fmtInteger a ++ '.' :: fmtInteger b⟩
      = ⟨2, some .unexpectedEOF, a, b, 0⟩ := by
  obtain ⟨ha1, ha2, ha3, ha4⟩ := fmtInteger_facts a (by omega)
  obtain ⟨hb1, hb2, hb3, hb4⟩ := fmtInteger_facts b (by omega)
  have hw : hugeWid = 1073741824 := by decide
  have hB := scanVerb_digits (fmtInteger b) [] (0 + (fmtInteger a).length + 1) b hb1 hb2 rfl
    (by omega) hb4 hb
  rw [List.append_nil] at hB
  rw [Sscanf,
    scanVerb_digits (fmtInteger a) _ 0 a ha1 ha2 (startsWithDigit_period _) (by omega) ha4 ha]
  simp only
  rw [advance_period _ _ (by omega)]
  simp only
  rw [hB]
  simp [ss.advance, ss.getRune]

/-! ## Numerals as text -/

/-- Three decimal numerals separated by periods, as a list of characters. -/
theorem numeral_three (a b c : Nat) :
    Nat.repr a ++ "." ++ Nat.repr b ++ "." ++ Nat.repr c
      = ⟨fmtInteger a ++ '.' :: (fmtInteger b ++ '.' :: (fmtInteger c ++ []))⟩ := by
  apply String.ext
  simp [fmtInteger_eq_repr]

/-- Two decimal numerals separated by a period, as a list of characters. -/
theorem numeral_two (a b : Nat) :
    Nat.repr a ++ "." ++ Nat.repr b = ⟨fmtInteger a ++ '.' :: fmtInteger b⟩ := by
  apply String.ext
  simp [fmtInteger_eq_repr]

/-- Three decimal numerals separated by periods and followed by more text, as
a list of characters. -/
theorem numeral_three_append (a b c : Nat) (t : String) :
    Nat.repr a ++ "." ++ Nat.repr b ++ "." ++ Nat.repr c ++ t
      = ⟨fmtInteger a ++ '.' :: (fmtInteger b ++ '.' :: (fmtInteger c ++ t.data))⟩ := by
  apply String.ext
  simp [fmtInteger_eq_repr]

/-- Text that begins with the letter `v` stores no operand: the first `%d`
finds no digit. -/
theorem Sscanf_v (rest : List Char) :
    Sscanf ⟨'v' :: rest⟩ = ⟨0, some .expectedInteger, 0, 0, 0⟩ := by
  have hc : ¬ 0 ≥ hugeWid := by decide
  have h1 : ¬ ('v' = '\r' ∧ ss.peek ⟨rest, 0 + 1⟩ ['\n'] = true) := by
    intro h; exact absurd h.1 (by decide)
  have h2 : ¬ 'v' = '\n' := by decide
  have h3 : isSpace 'v' = false := by decide
  have h4 : 'v' ∉ decimalDigits := by decide
  have hskip : SkipSpace ('v' :: rest) 0 = .ok ⟨'v' :: rest, 0⟩ := by
    rw [SkipSpace, if_neg hc, if_neg h1, if_neg h2, if_pos h3]
  simp only [Sscanf, ss.scanVerb, hskip, ss.scanUint, ss.notEOF, ss.getRune, hc, if_false,
    ss.scanNumber, ss.accept, h4]

/-! ## Theorems -/

/-- C1: `Kernel` clamps the patch to 255, truncates each field to its low
8 bits independently and packs the three bytes as
`(major_byte << 16) | (minor_byte << 8) | patch_byte`, a value that fits in
32 bits. -/
theorem Kernel_packs (v : Version) :
    v.Kernel = ((v.major % 256) <<< 16 ||| (v.minor % 256) <<< 8) ||| (min v.patch 255 % 256)
      ∧ v.Kernel < 2 ^ 32 := by
  have hm : min v.patch 255 % 256 = min v.patch 255 := Nat.mod_eq_of_lt (by omega)
  refine ⟨?_, ?_⟩
  · rw [Kernel_arith, hm, pack_bytes _ _ _ (by omega) (by omega)]
  · rw [Kernel_arith]; omega

/-- C2: packing a version whose three fields are at most 255 and unpacking the
code gives the version back. -/
theorem NewVersionFromCode_Kernel (v : Version)
    (h0 : v.major ≤ 255) (h1 : v.minor ≤ 255) (h2 : v.patch ≤ 255) :
    NewVersionFromCode v.Kernel = v := by
  rw [Kernel_arith]
  obtain ⟨a, b, c⟩ := v
  simp only [NewVersionFromCode, uint8, uint16, shr32, Nat.shiftRight_eq_div_pow,
    Version.mk.injEq] at *
  omega

/-- Witness for C2 at the version 5.10.100. -/
theorem NewVersionFromCode_Kernel_witness :
    NewVersionFromCode (Version.Kernel ⟨5, 10, 100⟩) = ⟨5, 10, 100⟩ :=
  NewVersionFromCode_Kernel ⟨5, 10, 100⟩ (by decide) (by decide) (by decide)

/-- C3: unpacking a code gives `((code >> 16) & 0xFF, (code >> 8) & 0xFF,
code & 0xFF)`; each field is at most 255; bits 24..31 of the code have no
influence; the code `0x00040409` unpacks to 4.4.9. The function is total. -/
theorem NewVersionFromCode_spec (code : Nat) :
    NewVersionFromCode code
        = ⟨(code >>> 16) &&& 0xFF, (code >>> 8) &&& 0xFF, code &&& 0xFF⟩
      ∧ ((NewVersionFromCode code).major ≤ 255 ∧ (NewVersionFromCode code).minor ≤ 255
          ∧ (NewVersionFromCode code).patch ≤ 255)
      ∧ NewVersionFromCode code = NewVersionFromCode (code % 2 ^ 24)
      ∧ NewVersionFromCode 0x00040409 = ⟨4, 4, 9⟩ := by
  have hand : ∀ x : Nat, x &&& 0xFF = x % 256 := fun x =>
    Nat.and_pow_two_sub_one_eq_mod x 8
  refine ⟨?_, ?_, ?_, by decide⟩
  · simp only [NewVersionFromCode, uint8, uint16, shr32, hand, Version.mk.injEq]
    omega
  · simp only [NewVersionFromCode, uint8, uint16, shr32]
    omega
  · simp only [NewVersionFromCode, uint8, uint16, shr32, Nat.shiftRight_eq_div_pow,
      Version.mk.injEq]
    omega

/-- C4: `Less` holds exactly when the first triple is strictly smaller in
lexicographic order; it is false on equal triples; the loop over the three
indices ends after at most three steps and agrees with the reference
definition `lexLt`. -/
theorem Less_lexicographic (a b : Version) :
    (a.Less b = true ↔
        a.major < b.major ∨
        (a.major = b.major ∧ a.minor < b.minor) ∨
        (a.major = b.major ∧ a.minor = b.minor ∧ a.patch < b.patch))
      ∧ (a.major = b.major ∧ a.minor = b.minor ∧ a.patch = b.patch → a.Less b = false)
      ∧ a.Less b = decide (a.lexLt b) := by
  have h := Less_iff_lexLt a b
  refine ⟨h, ?_, ?_⟩
  · rintro ⟨e0, e1, e2⟩
    cases hl : a.Less b
    · rfl
    · have := h.mp hl
      simp only [Version.lexLt] at this
      omega
  · cases hl : a.Less b
    · symm; rw [decide_eq_false_iff_not]; intro hc; rw [h.mpr hc] at hl; cases hl
    · symm; rw [decide_eq_true_iff]; exact h.mp hl

/-- Witness for C4 at two equal triples. -/
theorem Less_lexicographic_witness :
    Version.Less ⟨5, 10, 100⟩ ⟨5, 10, 100⟩ = false :=
  (Less_lexicographic ⟨5, 10, 100⟩ ⟨5, 10, 100⟩).2.1 ⟨rfl, rfl, rfl⟩

/-- C5: `Less` is irreflexive, `A.Less(A)` is false, and transitive,
`A.Less(B)` and `B.Less(C)` give `A.Less(C)`. -/
theorem Less_strict_order (a b c : Version) :
    a.Less a = false ∧ (a.Less b = true → b.Less c = true → a.Less c = true) := by
  refine ⟨?_, ?_⟩
  · cases hl : a.Less a
    · rfl
    · have := (Less_iff_lexLt a a).mp hl
      simp only [Version.lexLt] at this
      omega
  · intro hab hbc
    rw [Less_iff_lexLt] at *
    simp only [Version.lexLt] at *
    omega

/-- Witness for C5 on the chain 4.4 < 4.9 < 5.10.100. -/
theorem Less_strict_order_witness :
    Version.Less ⟨4, 4, 0⟩ ⟨4, 9, 0⟩ = true ∧ Version.Less ⟨4, 9, 0⟩ ⟨5, 10, 100⟩ = true
      ∧ Version.Less ⟨4, 4, 0⟩ ⟨5, 10, 100⟩ = true :=
  ⟨by decide, by decide,
    (Less_strict_order ⟨4, 4, 0⟩ ⟨4, 9, 0⟩ ⟨5, 10, 100⟩).2 (by decide) (by decide)⟩

/-- C6: `NewVersion` returns an error exactly when `Sscanf` stored fewer than
two operands, that is, unless the first `%d`, the literal period and the
second `%d` of the pattern all scan; on the error path the version returned
is the zero value, otherwise it holds the operands stored; the input `bogus`
fails. The other operations have no error result. -/
theorem NewVersion_error_iff (ver : String) :
    ((NewVersion ver).2 ≠ none ↔ (Sscanf ver).n < 2)
      ∧ ((Sscanf ver).n < 2 ↔
          ¬ ∃ major s1 s2 minor s3, ss.scanVerb ⟨ver.data, 0⟩ = .ok (major, s1)
              ∧ s1.advance '.' = .ok s2 ∧ s2.scanVerb = .ok (minor, s3))
      ∧ ((NewVersion ver).2 ≠ none → (NewVersion ver).1 = ⟨0, 0, 0⟩)
      ∧ ((NewVersion ver).2 = none →
          (NewVersion ver).1 = ⟨(Sscanf ver).major, (Sscanf ver).minor, (Sscanf ver).patch⟩)
      ∧ (NewVersion "bogus").2 ≠ none := by
  refine ⟨?_, ?_, ?_, ?_, by decide⟩
  · by_cases h : (Sscanf ver).n < 2 <;> simp [NewVersion, h]
  · cases h1 : ss.scanVerb ⟨ver.data, 0⟩ with
    | error e => simp [Sscanf, h1]
    | ok p1 =>
      obtain ⟨major, s1⟩ := p1
      cases h2 : s1.advance '.' with
      | error e =>
        refine ⟨fun _ => ?_, fun _ => by simp [Sscanf, h1, h2]⟩
        rintro ⟨major', s1', s2', minor', s3', e1, e2, -⟩
        cases e1
        rw [h2] at e2
        cases e2
      | ok s2 =>
        cases h3 : s2.scanVerb with
        | error e =>
          refine ⟨fun _ => ?_, fun _ => by simp [Sscanf, h1, h2, h3]⟩
          rintro ⟨major', s1', s2', minor', s3', e1, e2, e3⟩
          cases e1
          rw [h2] at e2
          cases e2
          rw [h3] at e3
          cases e3
        | ok p3 =>
          obtain ⟨minor, s3⟩ := p3
          have hge : ¬ (Sscanf ver).n < 2 := by
            simp only [Sscanf, h1, h2, h3]
            cases h4 : s3.advance '.' with
            | error e => simp
            | ok s4 =>
              cases h5 : s4.scanVerb with
              | error e => simp [h5]
              | ok p5 => simp [h5]
          exact ⟨fun h => absurd h hge,
            fun h => absurd ⟨major, s1, s2, minor, s3, rfl, h2, h3⟩ h⟩
  · by_cases h : (Sscanf ver).n < 2 <;> simp [NewVersion, h, Version.zero]
  · by_cases h : (Sscanf ver).n < 2 <;> simp [NewVersion, h]

/-- Witness for C6 at the input `bogus`. -/
theorem NewVersion_error_iff_witness :
    (NewVersion "bogus").2 ≠ none ∧ (NewVersion "bogus").1 = ⟨0, 0, 0⟩ :=
  ⟨by decide, (NewVersion_error_iff "bogus").2.2.1 (by decide)⟩

/-- C7: for `a`, `b`, `c` in `0..65535` the text made of the three decimal
numerals separated by periods parses to the version `(a, b, c)` without
error; `5.10.100` parses to `(5, 10, 100)`. -/
theorem NewVersion_three (a b c : Nat) (ha : a ≤ 65535) (hb : b ≤ 65535) (hc : c ≤ 65535) :
    NewVersion (Nat.repr a ++ "." ++ Nat.repr b ++ "." ++ Nat.repr c) = (⟨a, b, c⟩, none)
      ∧ NewVersion "5.10.100" = (⟨5, 10, 100⟩, none) := by
  refine ⟨?_, by decide⟩
  rw [numeral_three, NewVersion,
    Sscanf_three a b c [] (by omega) (by omega) (by omega) rfl]
  rfl

/-- Witness for C7 at the version 5.10.100. -/
theorem NewVersion_three_witness :
    NewVersion (Nat.repr 5 ++ "." ++ Nat.repr 10 ++ "." ++ Nat.repr 100)
        = (⟨5, 10, 100⟩, none)
      ∧ NewVersion "5.10.100" = (⟨5, 10, 100⟩, none) :=
  NewVersion_three 5 10 100 (by decide) (by decide) (by decide)

/-- C8: for `a`, `b` in `0..65535` the text `<a>.<b>` parses to `(a, b, 0)`
without error, the same result as for `<a>.<b>.0`, and both results render
as `v<a>.<b>`; `4.4` parses to `(4, 4, 0)`, which renders as `v4.4`. -/
theorem NewVersion_two (a b : Nat) (ha : a ≤ 65535) (hb : b ≤ 65535) :
    NewVersion (Nat.repr a ++ "." ++ Nat.repr b) = (⟨a, b, 0⟩, none)
      ∧ NewVersion (Nat.repr a ++ "." ++ Nat.repr b)
          = NewVersion (Nat.repr a ++ "." ++ Nat.repr b ++ ".0")
      ∧ (NewVersion (Nat.repr a ++ "." ++ Nat.repr b)).1.String
          = "v" ++ Nat.repr a ++ "." ++ Nat.repr b
      ∧ (NewVersion (Nat.repr a ++ "." ++ Nat.repr b ++ ".0")).1.String
          = "v" ++ Nat.repr a ++ "." ++ Nat.repr b
      ∧ NewVersion "4.4" = (⟨4, 4, 0⟩, none)
      ∧ (NewVersion "4.4").1.String = "v4.4" := by
  have h2 : NewVersion (Nat.repr a ++ "." ++ Nat.repr b) = (⟨a, b, 0⟩, none) := by
    rw [numeral_two, NewVersion, Sscanf_two a b (by omega) (by omega)]
    rfl
  have h3 : NewVersion (Nat.repr a ++ "." ++ Nat.repr b ++ ".0") = (⟨a, b, 0⟩, none) := by
    have e0 : (".0" : String) = "." ++ Nat.repr 0 := by decide
    rw [e0, ← String.append_assoc, numeral_three, NewVersion,
      Sscanf_three a b 0 [] (by omega) (by omega) (by omega) rfl]
    rfl
  have hs : (Version.mk a b 0).String = "v" ++ Nat.repr a ++ "." ++ Nat.repr b := by
    apply String.ext
    simp [Version.String, Version.idx, Sprintf2, fmtInteger_eq_repr]
  refine ⟨h2, ?_, ?_, ?_, by decide, by decide⟩
  · rw [h2, h3]
  · rw [h2]; exact hs
  · rw [h3]; exact hs

/-- Witness for C8 at the version 4.4. -/
theorem NewVersion_two_witness :
    NewVersion (Nat.repr 4 ++ "." ++ Nat.repr 4) = (⟨4, 4, 0⟩, none) :=
  (NewVersion_two 4 4 (by decide) (by decide)).1

/-- C9: `String` is `v<major>.<minor>` when the patch is zero and
`v<major>.<minor>.<patch>` otherwise, the numbers written as decimal
numerals; the text has two periods, the second one opening the patch segment,
exactly when the patch is not zero, and one period otherwise. -/
theorem String_spec (v : Version) :
    (v.patch = 0 → v.String = "v" ++ Nat.repr v.major ++ "." ++ Nat.repr v.minor)
      ∧ (v.patch ≠ 0 →
          v.String
            = "v" ++ Nat.repr v.major ++ "." ++ Nat.repr v.minor ++ "." ++ Nat.repr v.patch)
      ∧ (v.String.data.count '.' = 2 ↔ v.patch ≠ 0)
      ∧ (v.String.data.count '.' = 1 ↔ v.patch = 0) := by
  have hcount : ∀ u : Nat, (fmtInteger u).count '.' = 0 := by
    intro u
    rw [List.count_eq_zero]
    intro hmem
    have hd := fmtIntegerLoop_digits u u [] (Nat.le_refl u) (by simp) '.' hmem
    exact (decimalDigits_plain '.' hd).2.2.1 rfl
  by_cases hp : v.patch = 0
  · have hs : v.String = Sprintf2 v.major v.minor := by
      simp [Version.String, Version.idx, hp]
    refine ⟨fun _ => ?_, fun h => absurd hp h, ?_, ?_⟩
    · rw [hs]; apply String.ext
      simp [Sprintf2, fmtInteger_eq_repr]
    · rw [hs]
      simp [Sprintf2, List.count_cons, List.count_append, hcount, hp]
    · rw [hs]
      simp [Sprintf2, List.count_cons, List.count_append, hcount, hp]
  · have hs : v.String = Sprintf3 v.major v.minor v.patch := by
      simp [Version.String, Version.idx, hp]
    refine ⟨fun h => absurd h hp, fun _ => ?_, ?_, ?_⟩
    · rw [hs]; apply String.ext
      simp [Sprintf3, fmtInteger_eq_repr]
    · rw [hs]
      simp [Sprintf3, List.count_cons, List.count_append, hcount, hp]
    · rw [hs]
      simp [Sprintf3, List.count_cons, List.count_append, hcount, hp]

/-- Witness for C9 at the versions 4.4 and 5.10.100. -/
theorem String_spec_witness :
    (Version.mk 4 4 0).String = "v" ++ Nat.repr 4 ++ "." ++ Nat.repr 4
      ∧ (Version.mk 5 10 100).String
          = "v" ++ Nat.repr 5 ++ "." ++ Nat.repr 10 ++ "." ++ Nat.repr 100 :=
  ⟨(String_spec ⟨4, 4, 0⟩).1 rfl, (String_spec ⟨5, 10, 100⟩).2.1 (by decide)⟩

/-- C10: a patch above 255 packs like the patch 255; the versions 4.9.300 and
4.9.255 both pack to `0x0409FF`. -/
theorem Kernel_clamp (major minor patch : Nat) (h : patch > 255) :
    (Version.mk major minor patch).Kernel = (Version.mk major minor 255).Kernel
      ∧ (Version.mk 4 9 300).Kernel = 0x0409FF
      ∧ (Version.mk 4 9 255).Kernel = 0x0409FF := by
  refine ⟨?_, by decide, by decide⟩
  rw [Kernel_arith, Kernel_arith]
  simp only
  omega

/-- Witness for C10 at the version 4.9.300. -/
theorem Kernel_clamp_witness :
    (Version.mk 4 9 300).Kernel = (Version.mk 4 9 255).Kernel
      ∧ (Version.mk 4 9 300).Kernel = 0x0409FF
      ∧ (Version.mk 4 9 255).Kernel = 0x0409FF :=
  Kernel_clamp 4 9 300 (by decide)


/-- C11: a major or minor of 256 or more packs like the field reduced modulo
256; each byte lane of the code is set by its own field alone: bits 16..23
by the major, bits 8..15 by the minor, bits 0..7 by the clamped patch. -/
theorem Kernel_truncation (major minor patch : Nat) :
    (Version.mk major minor patch).Kernel
        = (Version.mk (major % 256) (minor % 256) patch).Kernel
      ∧ (Version.mk major minor patch).Kernel = (Version.mk (major % 256) minor patch).Kernel
      ∧ (Version.mk major minor patch).Kernel = (Version.mk major (minor % 256) patch).Kernel
      ∧ ((Version.mk major minor patch).Kernel >>> 16) % 256 = major % 256
      ∧ ((Version.mk major minor patch).Kernel >>> 8) % 256 = minor % 256
      ∧ (Version.mk major minor patch).Kernel % 256 = min patch 255 := by
  simp only [Kernel_arith, Nat.shiftRight_eq_div_pow]
  omega

/-- C12: unpacking loses nothing of a packed code,
`NewVersionFromCode(v.Kernel()).Kernel() = v.Kernel()`; on any code,
unpacking and packing again gives `code & 0x00FFFFFF`, which is the code
itself when the code is below `2 ^ 24`. -/
theorem Kernel_NewVersionFromCode (v : Version) (code : Nat) :
    (NewVersionFromCode v.Kernel).Kernel = v.Kernel
      ∧ (NewVersionFromCode code).Kernel = code &&& 0x00FFFFFF
      ∧ (code < 2 ^ 24 → (NewVersionFromCode code).Kernel = code) := by
  have hand : code &&& 0x00FFFFFF = code % 2 ^ 24 := Nat.and_pow_two_sub_one_eq_mod code 24
  have hk : ∀ c : Nat, (NewVersionFromCode c).Kernel = c % 2 ^ 24 := by
    intro c
    rw [Kernel_arith]
    simp only [NewVersionFromCode, uint8, uint16, shr32, Nat.shiftRight_eq_div_pow]
    omega
  refine ⟨?_, ?_, ?_⟩
  · rw [hk, Kernel_arith]; omega
  · rw [hk, hand]
  · intro h
    rw [hk]; omega

/-- Witness for C12 at the code `0x050A64` of the version 5.10.100. -/
theorem Kernel_NewVersionFromCode_witness :
    (NewVersionFromCode 0x050A64).Kernel = 0x050A64 :=
  (Kernel_NewVersionFromCode ⟨5, 10, 100⟩ 0x050A64).2.2 (by decide)

/-- C13: for a major and a minor of at most 255 and any patch, `Kernel` is the
value of the macro `KERNEL_VERSION`, that is
`major * 65536 + minor * 256 + min(patch, 255)`, and the sum stays below
`2 ^ 32`. -/
theorem Kernel_eq_KERNEL_VERSION (a b c : Nat) (ha : a ≤ 255) (hb : b ≤ 255) :
    (Version.mk a b c).Kernel = KERNEL_VERSION a b c
      ∧ KERNEL_VERSION a b c = a * 65536 + b * 256 + min c 255
      ∧ KERNEL_VERSION a b c < 2 ^ 32 := by
  have hm : KERNEL_VERSION a b c = a * 65536 + b * 256 + min c 255 := by
    simp only [KERNEL_VERSION, Nat.shiftLeft_eq]
    split <;> omega
  refine ⟨?_, hm, ?_⟩
  · rw [hm, Kernel_arith]
    simp only
    omega
  · rw [hm]; omega

/-- Witness for C13 at the version 4.9.300. -/
theorem Kernel_eq_KERNEL_VERSION_witness :
    (Version.mk 4 9 300).Kernel = KERNEL_VERSION 4 9 300 :=
  (Kernel_eq_KERNEL_VERSION 4 9 300 (by decide) (by decide)).1

/-- C14, as the claim states it, fails: `MagicKernelVersion` does not unpack
to `(254, 255, 254)`. -/
theorem NewVersionFromCode_Magic_counterexample :
    NewVersionFromCode MagicKernelVersion ≠ ⟨254, 255, 254⟩ := by
  decide

/-- C14, amended: `NewVersionFromCode(MagicKernelVersion)` is the version
`(255, 255, 254)`; bits 16..23 of `0xFFFFFFFE` are `0xFF`. -/
theorem NewVersionFromCode_Magic :
    NewVersionFromCode MagicKernelVersion = ⟨255, 255, 254⟩ := by
  decide

/-- C16: `Unspecified` is true exactly on the version `(0, 0, 0)`; a version
with a nonzero field is not unspecified. -/
theorem Unspecified_iff (v : Version) :
    (v.Unspecified = true ↔ v = ⟨0, 0, 0⟩)
      ∧ (v.major ≠ 0 ∨ v.minor ≠ 0 ∨ v.patch ≠ 0 → v.Unspecified = false) := by
  obtain ⟨a, b, c⟩ := v
  have h : (Version.mk a b c).Unspecified = true ↔ Version.mk a b c = ⟨0, 0, 0⟩ := by
    simp [Version.Unspecified, Version.idx, and_assoc]
  refine ⟨h, ?_⟩
  intro hne
  cases hu : (Version.mk a b c).Unspecified
  · rfl
  · have := h.mp hu
    simp only [Version.mk.injEq] at this
    simp only at hne
    omega

/-- Witness for C16 at the version 0.0.1. -/
theorem Unspecified_iff_witness :
    (Version.mk 0 0 1).Unspecified = false :=
  (Unspecified_iff ⟨0, 0, 1⟩).2 (Or.inr (Or.inr (by decide)))

/-- C17: for two versions exactly one of `A.Less(B)`, `A = B`, `B.Less(A)`
holds; equality is the absence of `Less` in both directions; `Less` is
asymmetric. -/
theorem Less_trichotomy (a b : Version) :
    ((a.Less b = true ∧ a ≠ b ∧ b.Less a = false)
        ∨ (a.Less b = false ∧ a = b ∧ b.Less a = false)
        ∨ (a.Less b = false ∧ a ≠ b ∧ b.Less a = true))
      ∧ (a = b ↔ a.Less b = false ∧ b.Less a = false)
      ∧ (a.Less b = true → b.Less a = false) := by
  have hab := Less_iff_lexLt a b
  have hba := Less_iff_lexLt b a
  have hf : ∀ x y : Version, x.Less y = false ↔ ¬ x.lexLt y := by
    intro x y
    rw [← Less_iff_lexLt]
    cases x.Less y <;> simp
  obtain ⟨a0, a1, a2⟩ := a
  obtain ⟨b0, b1, b2⟩ := b
  simp only [hf, hab, hba, Version.lexLt, Version.mk.injEq, ne_eq]
  omega

/-- Witness for C17 on the pair 4.4 and 4.9. -/
theorem Less_trichotomy_witness :
    Version.Less ⟨4, 9, 0⟩ ⟨4, 4, 0⟩ = false :=
  (Less_trichotomy ⟨4, 4, 0⟩ ⟨4, 9, 0⟩).2.2 (by decide)

/-- C18: on versions whose major and minor are at most 255, `Less` implies
that the packed codes are in weak order, and when the patches are at most 255
as well, `Less` holds exactly when the packed codes are in strict order. -/
theorem Kernel_order (a b : Version)
    (ha0 : a.major ≤ 255) (ha1 : a.minor ≤ 255) (hb0 : b.major ≤ 255) (hb1 : b.minor ≤ 255) :
    (a.patch ≤ 255 → b.patch ≤ 255 → (a.Less b = true ↔ a.Kernel < b.Kernel))
      ∧ (a.Less b = true → a.Kernel ≤ b.Kernel) := by
  obtain ⟨a0, a1, a2⟩ := a
  obtain ⟨b0, b1, b2⟩ := b
  simp only [Less_iff_lexLt, Kernel_arith, Version.lexLt] at *
  omega

/-- Witness for C18 on the pair 4.9.255 and 4.9.300, which pack alike. -/
theorem Kernel_order_witness :
    (Version.mk 4 9 255).Kernel ≤ (Version.mk 4 9 300).Kernel :=
  (Kernel_order ⟨4, 9, 255⟩ ⟨4, 9, 300⟩ (by decide) (by decide) (by decide) (by decide)).2
    (by decide)

/-- C19: a packed code is at most `0x00FFFFFF`, so no version packs to
`MagicKernelVersion`. -/
theorem Kernel_le (v : Version) :
    v.Kernel ≤ 0x00FFFFFF ∧ v.Kernel ≠ MagicKernelVersion := by
  have h : v.Kernel ≤ 0x00FFFFFF := by
    rw [Kernel_arith]; omega
  refine ⟨h, ?_⟩
  have hm : MagicKernelVersion = 4294967294 := by decide
  rw [hm]
  omega

/-- C15: for `a`, `b`, `c` in `0..65535` and any trailing text that does not
begin with a decimal digit, the three numerals followed by that text parse
to `(a, b, c)` without error, the result for the three numerals alone. -/
theorem NewVersion_trailing (a b c : Nat) (t : String)
    (ha : a ≤ 65535) (hb : b ≤ 65535) (hc : c ≤ 65535)
    (ht : startsWithDigit t.data = false) :
    NewVersion (Nat.repr a ++ "." ++ Nat.repr b ++ "." ++ Nat.repr c ++ t)
        = (⟨a, b, c⟩, none)
      ∧ NewVersion (Nat.repr a ++ "." ++ Nat.repr b ++ "." ++ Nat.repr c ++ t)
        = NewVersion (Nat.repr a ++ "." ++ Nat.repr b ++ "." ++ Nat.repr c) := by
  have h1 : NewVersion (Nat.repr a ++ "." ++ Nat.repr b ++ "." ++ Nat.repr c ++ t)
      = (⟨a, b, c⟩, none) := by
    rw [numeral_three_append, NewVersion,
      Sscanf_three a b c t.data (by omega) (by omega) (by omega) ht]
    rfl
  have h2 : NewVersion (Nat.repr a ++ "." ++ Nat.repr b ++ "." ++ Nat.repr c)
      = (⟨a, b, c⟩, none) := by
    rw [numeral_three, NewVersion,
      Sscanf_three a b c [] (by omega) (by omega) (by omega) rfl]
    rfl
  exact ⟨h1, by rw [h1, h2]⟩

/-- Witness for C15 at the text `5.10.100-generic`. -/
theorem NewVersion_trailing_witness :
    NewVersion (Nat.repr 5 ++ "." ++ Nat.repr 10 ++ "." ++ Nat.repr 100 ++ "-generic")
      = (⟨5, 10, 100⟩, none) :=
  (NewVersion_trailing 5 10 100 "-generic" (by decide) (by decide) (by decide)
    (by decide)).1

/-- C20: the rendering of a version of `uint16` fields begins with `v`;
without that first character it parses back to the version without error;
with it, `NewVersion` returns an error. -/
theorem String_NewVersion (v : Version) (hv : v.IsUint16) :
    v.String.data.head? = some 'v'
      ∧ NewVersion ⟨v.String.data.tail⟩ = (v, none)
      ∧ (NewVersion v.String).2 ≠ none := by
  obtain ⟨a, b, c⟩ := v
  obtain ⟨ha, hb, hc⟩ := hv
  simp only at ha hb hc
  by_cases hp : c = 0
  · subst hp
    have hs : (Version.mk a b 0).String = ⟨'v' :: (fmtInteger a ++ '.' :: fmtInteger b)⟩ := by
      simp [Version.String, Version.idx, Sprintf2]
    rw [hs]
    refine ⟨rfl, ?_, ?_⟩
    · simp only [List.tail_cons]
      rw [NewVersion, Sscanf_two a b ha hb]
      rfl
    · rw [NewVersion, Sscanf_v]
      simp
  · have hs : (Version.mk a b c).String
        = ⟨'v' :: (fmtInteger a ++ '.' :: (fmtInteger b ++ '.' :: fmtInteger c))⟩ := by
      simp [Version.String, Version.idx, Sprintf3, hp]
    have hnil : fmtInteger c = fmtInteger c ++ [] := (List.append_nil _).symm
    rw [hs]
    refine ⟨rfl, ?_, ?_⟩
    · simp only [List.tail_cons]
      rw [hnil, NewVersion, Sscanf_three a b c [] ha hb hc rfl]
      rfl
    · rw [NewVersion, Sscanf_v]
      simp

/-- Witness for C20 at the version 5.10.100. -/
theorem String_NewVersion_witness :
    NewVersion ⟨(Version.mk 5 10 100).String.data.tail⟩ = (⟨5, 10, 100⟩, none)
      ∧ (NewVersion (Version.mk 5 10 100).String).2 ≠ none :=
  (String_NewVersion ⟨5, 10, 100⟩ (by decide)).2

end Internal
